import Mathlib

/-!
Verification of the network analysis pipeline of src/network_analysis.py.

The file gives a shallow embedding of the functions of the script that the
specification claims are about: the min-max scaler scale, the graph built
by nx.from_pandas_edgelist together with the degree report of networkx,
the table assembly of network_csv, the branch structure of plot_network,
and the per-file loop of main over a directory. Numeric values are
modelled as exact rationals; the IEEE quotient 0/0 that numpy produces
when an all-equal array is scaled is modelled by Option, with none
standing for NaN.
-/

namespace NetworkAnalysis

/-! ## Visual Attribute Scaler: scale (source lines 54 to 63) -/

/-- Minimum of a list of rationals, as the Python builtin min applied to a
nonempty sequence; the empty list yields the junk value 0 and never occurs
in the program. -/
def listMin : List ℚ → ℚ
  | [] => 0
  | x :: xs => xs.foldl min x

/-- Maximum of a list of rationals, as the Python builtin max applied to a
nonempty sequence. -/
def listMax : List ℚ → ℚ
  | [] => 0
  | x :: xs => xs.foldl max x

/-- Division as numpy evaluates it elementwise in scale: at every use site
the numerator vanishes whenever the denominator does, so a zero
denominator is exactly the IEEE quotient 0/0, i.e. NaN, modelled as
none. -/
def divNaN (num den : ℚ) : Option ℚ :=
  if den = 0 then none else some (num / den)

/-- Embedding of scale: xnormalized = ((b - a) * ((x - min(x)) / (max(x) - min(x))) + a),
evaluated elementwise; an element is none exactly when the float code
would hold NaN, and arithmetic on NaN yields NaN (Option.map). -/
def scale (x : List ℚ) (a b : ℚ) : List (Option ℚ) :=
  x.map fun xi =>
    (divNaN (xi - listMin x) (listMax x - listMin x)).map fun r => (b - a) * r + a

theorem foldl_min_le_init (xs : List ℚ) (a : ℚ) : xs.foldl min a ≤ a := by
  induction xs generalizing a with
  | nil => exact le_refl a
  | cons x xs ih => exact le_trans (ih (min a x)) (min_le_left a x)

theorem foldl_min_le_of_mem {b : ℚ} {xs : List ℚ} (a : ℚ) (h : b ∈ xs) :
    xs.foldl min a ≤ b := by
  induction xs generalizing a with
  | nil => cases h
  | cons x xs ih =>
    rcases List.mem_cons.mp h with h1 | h2
    · subst h1
      exact le_trans (foldl_min_le_init xs (min a b)) (min_le_right a b)
    · exact ih (min a x) h2

theorem init_le_foldl_max (xs : List ℚ) (a : ℚ) : a ≤ xs.foldl max a := by
  induction xs generalizing a with
  | nil => exact le_refl a
  | cons x xs ih => exact le_trans (le_max_left a x) (ih (max a x))

theorem mem_le_foldl_max {b : ℚ} {xs : List ℚ} (a : ℚ) (h : b ∈ xs) :
    b ≤ xs.foldl max a := by
  induction xs generalizing a with
  | nil => cases h
  | cons x xs ih =>
    rcases List.mem_cons.mp h with h1 | h2
    · subst h1
      exact le_trans (le_max_right a b) (init_le_foldl_max xs (max a b))
    · exact ih (max a x) h2

theorem listMin_le_of_mem {u : ℚ} {x : List ℚ} (h : u ∈ x) : listMin x ≤ u := by
  cases x with
  | nil => cases h
  | cons y ys =>
    rcases List.mem_cons.mp h with h1 | h2
    · subst h1
      exact foldl_min_le_init ys u
    · exact foldl_min_le_of_mem y h2

theorem le_listMax_of_mem {u : ℚ} {x : List ℚ} (h : u ∈ x) : u ≤ listMax x := by
  cases x with
  | nil => cases h
  | cons y ys =>
    rcases List.mem_cons.mp h with h1 | h2
    · subst h1
      exact init_le_foldl_max ys u
    · exact mem_le_foldl_max y h2

/-- An array with two distinct values has a strictly smaller minimum than
maximum, so the denominator of the scaling formula does not vanish. -/
theorem listMin_lt_listMax {x : List ℚ} (h : ∃ u ∈ x, ∃ v ∈ x, u ≠ v) :
    listMin x < listMax x := by
  obtain ⟨u, hu, v, hv, huv⟩ := h
  rcases lt_or_le (listMin x) (listMax x) with hlt | hle
  · exact hlt
  · exfalso
    apply huv
    have h1 : u ≤ listMin x := le_trans (le_listMax_of_mem hu) hle
    have h2 : v ≤ listMin x := le_trans (le_listMax_of_mem hv) hle
    have h3 : listMin x ≤ u := listMin_le_of_mem hu
    have h4 : listMin x ≤ v := listMin_le_of_mem hv
    rw [le_antisymm h1 h3, le_antisymm h2 h4]

/-- C1: for every input array with at least two distinct values and every
target range [a, b] with a < b, scale returns the array whose i-th element
is (b - a) * (x[i] - min(x)) / (max(x) - min(x)) + a, and rescaling
[1, 2, 3, 4] to [0, 1] yields exactly 0 at the first position and exactly
1 at the last (the full output being [0, 1/3, 2/3, 1]). -/
theorem scale_formula (x : List ℚ) (a b : ℚ)
    (hx : ∃ u ∈ x, ∃ v ∈ x, u ≠ v) (hab : a < b) :
    scale x a b =
      x.map (fun xi => some ((b - a) * ((xi - listMin x) / (listMax x - listMin x)) + a)) ∧
    scale [1, 2, 3, 4] 0 1 = [some 0, some (1/3), some (2/3), some 1] := by
  constructor
  · have hne : listMax x - listMin x ≠ 0 :=
      sub_ne_zero_of_ne (ne_of_gt (listMin_lt_listMax hx))
    apply List.map_congr_left
    intro xi _
    simp [divNaN, hne]
  · norm_num [scale, divNaN, listMin, listMax]

/-- Witness for C1: the concrete rescaling of [1, 2, 3, 4] to [0, 1]. -/
theorem scale_formula_witness :
    scale [1, 2, 3, 4] 0 1 = [some 0, some (1/3), some (2/3), some 1] :=
  (scale_formula [1, 2, 3, 4] 0 1 ⟨1, by norm_num, 2, by norm_num, by norm_num⟩
    (by norm_num)).2

/-- C2 at its failing input: for every target range, scaling the all-equal
array [5, 5, 5] makes the code divide zero by zero, so every element of
the returned array is NaN; no error is raised and no defined constant is
returned. -/
theorem scale_allEqual_isNaN (a b : ℚ) :
    scale [5, 5, 5] a b = [none, none, none] := by
  simp [scale, divNaN, listMin, listMax]

/-- C10: when min(x) < max(x), scale sends every position holding the
minimum exactly to a and every position holding the maximum exactly to b,
and when a < b it preserves the strict order of the input values. -/
theorem scale_endpoints_mono (x : List ℚ) (a b : ℚ) (h : listMin x < listMax x) :
    (∀ i : ℕ, x[i]? = some (listMin x) → (scale x a b)[i]? = some (some a)) ∧
    (∀ i : ℕ, x[i]? = some (listMax x) → (scale x a b)[i]? = some (some b)) ∧
    (a < b → ∀ i j : ℕ, ∀ u v : ℚ, x[i]? = some u → x[j]? = some v → u < v →
      ∃ su sv : ℚ, (scale x a b)[i]? = some (some su) ∧
        (scale x a b)[j]? = some (some sv) ∧ su < sv) := by
  have hne : listMax x - listMin x ≠ 0 := sub_ne_zero_of_ne (ne_of_gt h)
  have hpos : 0 < listMax x - listMin x := sub_pos.mpr h
  refine ⟨?_, ?_, ?_⟩
  · intro i hi
    rw [scale, List.getElem?_map, hi]
    simp [divNaN, hne]
  · intro i hi
    rw [scale, List.getElem?_map, hi]
    simp [divNaN, hne, div_self hne]
  · intro hab i j u v hu hv huv
    refine ⟨(b - a) * ((u - listMin x) / (listMax x - listMin x)) + a,
            (b - a) * ((v - listMin x) / (listMax x - listMin x)) + a, ?_, ?_, ?_⟩
    · rw [scale, List.getElem?_map, hu]
      simp [divNaN, hne]
    · rw [scale, List.getElem?_map, hv]
      simp [divNaN, hne]
    · have h1 : (u - listMin x) / (listMax x - listMin x) <
          (v - listMin x) / (listMax x - listMin x) :=
        div_lt_div_of_pos_right (by linarith) hpos
      have h2 : 0 < b - a := sub_pos.mpr hab
      nlinarith
/-- Witness for C10: in [1, 2] rescaled to [0, 1] the position of the
minimum is sent exactly to 0. -/
theorem scale_endpoints_mono_witness :
    (scale [1, 2] 0 1)[0]? = some (some 0) :=
  (scale_endpoints_mono [1, 2] 0 1 (by norm_num [listMin, listMax])).1 0
    (by norm_num [listMin])

/-! ## Graph Builder and Centrality Engine: network_analysis (source lines 66 to 80) -/

/-- One row of the edgelist dataframe: columns Source, Target, Weight. -/
structure EdgeRecord where
  source : String
  target : String
  weight : ℚ
deriving DecidableEq

/-- Whether two stored pairs denote the same unordered edge: equal as
ordered pairs or equal after swapping one of them. -/
def sameEdge (p q : String × String) : Bool :=
  decide ((p.1 = q.1 ∧ p.2 = q.2) ∨ (p.1 = q.2 ∧ p.2 = q.1))

theorem sameEdge_refl (p : String × String) : sameEdge p p = true := by
  simp [sameEdge]

theorem sameEdge_trans {p q r : String × String} (h1 : sameEdge p q = true)
    (h2 : sameEdge q r = true) : sameEdge p r = true := by
  simp only [sameEdge, decide_eq_true_eq] at h1 h2 ⊢
  rcases h1 with ⟨ha, hb⟩ | ⟨ha, hb⟩ <;> rcases h2 with ⟨hc, hd⟩ | ⟨hc, hd⟩ <;>
    simp [ha, hb, hc, hd] at *

theorem sameEdge_symm {p q : String × String} (h : sameEdge p q = true) :
    sameEdge q p = true := by
  simp only [sameEdge, decide_eq_true_eq] at h ⊢
  tauto

/-- The undirected weighted graph of networkx, as far as the script
observes it: the nodes in first-appearance order, and one stored entry
per unordered edge, keyed by the endpoints in first-insertion orientation
and carrying the weight attribute. -/
structure Graph where
  nodes : List String
  edges : List ((String × String) × ℚ)
deriving DecidableEq

/-- Node registration of networkx add_edge: a new node is appended, an
already known one leaves the node list unchanged. -/
def addNode (ns : List String) (v : String) : List String :=
  if v ∈ ns then ns else ns ++ [v]

/-- Edge update of networkx add_edge: when the unordered pair is already
present its weight attribute is overwritten in place, otherwise the edge
is appended. -/
def updEdges : List ((String × String) × ℚ) → String → String → ℚ → List ((String × String) × ℚ)
  | [], s, t, w => [((s, t), w)]
  | e :: es, s, t, w =>
      if sameEdge e.1 (s, t) then (e.1, w) :: es else e :: updEdges es s t w

/-- Processing of one dataframe row by nx.from_pandas_edgelist. -/
def addEdgeRecord (G : Graph) (r : EdgeRecord) : Graph :=
  { nodes := addNode (addNode G.nodes r.source) r.target
    edges := updEdges G.edges r.source r.target r.weight }

/-- Embedding of nx.from_pandas_edgelist over the rows of the dataframe,
processed in order starting from the empty graph. -/
def from_pandas_edgelist (rs : List EdgeRecord) : Graph :=
  rs.foldl addEdgeRecord ⟨[], []⟩

/-- Adjacency entries of a node, as networkx stores them: one entry per
stored edge touching the node, holding the other endpoint, or the node
itself for a self loop. -/
def adjList (v : String) : List ((String × String) × ℚ) → List String
  | [] => []
  | e :: es =>
      if e.1.1 = v ∧ e.1.2 = v then v :: adjList v es
      else if e.1.1 = v then e.1.2 :: adjList v es
      else if e.1.2 = v then e.1.1 :: adjList v es
      else adjList v es

/-- Degree of a node as G.degree() reports it: the length of the
adjacency list, plus one more when the node carries a self loop, since
networkx counts a loop twice. -/
def degree (G : Graph) (v : String) : ℕ :=
  (adjList v G.edges).length + (if v ∈ adjList v G.edges then 1 else 0)

/-- Embedding of dict(G.degree()): one entry per node of the graph, in
node insertion order. -/
def degreeMap (G : Graph) : List (String × ℕ) :=
  G.nodes.map fun v => (v, degree G v)

/-- Whether a stored edge touches the node v. -/
def incident (v : String) (e : (String × String) × ℚ) : Bool :=
  decide (e.1.1 = v ∨ e.1.2 = v)

/-- Number of edges of the graph incident to v; a self loop is a single
edge and is counted once here. -/
def incidentCount (G : Graph) (v : String) : ℕ :=
  (G.edges.filter (incident v)).length

/-- Whether a stored edge is a self loop at v. -/
def isLoopAt (v : String) (e : (String × String) × ℚ) : Bool :=
  decide (e.1.1 = v ∧ e.1.2 = v)

/-- Whether the graph has a self loop at v. -/
def hasLoopAt (G : Graph) (v : String) : Bool :=
  G.edges.any (isLoopAt v)

theorem adjList_length (v : String) (es : List ((String × String) × ℚ)) :
    (adjList v es).length = (es.filter (incident v)).length := by
  induction es with
  | nil => rfl
  | cons e es ih =>
    by_cases h1 : e.1.1 = v ∧ e.1.2 = v
    · simp only [adjList, if_pos h1, List.filter_cons, incident]
      rw [if_pos (by simpa using Or.inl h1.1)]
      simp [ih]
    · by_cases h2 : e.1.1 = v
      · simp only [adjList, if_neg h1, if_pos h2, List.filter_cons, incident]
        rw [if_pos (by simpa using Or.inl h2)]
        simp [ih]
      · by_cases h3 : e.1.2 = v
        · simp only [adjList, if_neg h1, if_neg h2, if_pos h3, List.filter_cons, incident]
          rw [if_pos (by simpa using Or.inr h3)]
          simp [ih]
        · simp only [adjList, if_neg h1, if_neg h2, if_neg h3, List.filter_cons, incident]
          rw [if_neg (by simp [h2, h3])]
          exact ih

theorem mem_adjList_self (v : String) (es : List ((String × String) × ℚ)) :
    v ∈ adjList v es ↔ es.any (isLoopAt v) = true := by
  induction es with
  | nil => simp [adjList]
  | cons e es ih =>
    by_cases h1 : e.1.1 = v ∧ e.1.2 = v
    · simp only [adjList, if_pos h1, List.any_cons, isLoopAt]
      simp [h1]
    · by_cases h2 : e.1.1 = v
      · have h3 : e.1.2 ≠ v := fun hc => h1 ⟨h2, hc⟩
        simp only [adjList, if_neg h1, if_pos h2, List.any_cons, isLoopAt]
        simp [List.mem_cons, h3, Ne.symm h3, ih, h1]
      · by_cases h3 : e.1.2 = v
        · simp only [adjList, if_neg h1, if_neg h2, if_pos h3, List.any_cons, isLoopAt]
          have h4 : v ≠ e.1.1 := fun hc => h2 hc.symm
          simp [List.mem_cons, h2, h4, ih, h1]
        · simp only [adjList, if_neg h1, if_neg h2, if_neg h3, List.any_cons, isLoopAt]
          simp [ih, h1]

/-- C3 (amended): for every graph with at least one node, dict(G.degree())
has exactly one entry per node, in node order, and every entry equals the
number of edges incident to the node plus one more for a self loop, the
loop-counted-twice convention of the graph model; in particular the entry
is exactly the number of incident edges whenever the node has no self
loop. -/
theorem degreeMap_spec (G : Graph) (hN : 1 ≤ G.nodes.length) :
    (degreeMap G).length = G.nodes.length ∧
    (degreeMap G).map Prod.fst = G.nodes ∧
    ∀ p ∈ degreeMap G,
      p.2 = incidentCount G p.1 + (if hasLoopAt G p.1 then 1 else 0) ∧
      (hasLoopAt G p.1 = false → p.2 = incidentCount G p.1) := by
  have hfst : (degreeMap G).map Prod.fst = G.nodes := by
    rw [degreeMap, List.map_map]
    exact List.map_id G.nodes
  refine ⟨by simp [degreeMap], hfst, ?_⟩
  intro p hp
  obtain ⟨v, hv, rfl⟩ := List.mem_map.mp hp
  have hdeg : degree G v = incidentCount G v + (if hasLoopAt G v then 1 else 0) := by
    rw [degree, adjList_length, incidentCount]
    by_cases hl : hasLoopAt G v = true
    · rw [if_pos ((mem_adjList_self v G.edges).mpr hl), if_pos hl]
    · rw [if_neg fun hc => hl ((mem_adjList_self v G.edges).mp hc),
        if_neg (by simpa using hl)]
  exact ⟨hdeg, fun hl => by rw [hdeg, hl]; simp⟩

/-- Witness for C3 (amended) on the graph of the single record (A, B, 1). -/
theorem degreeMap_spec_witness :
    (degreeMap (from_pandas_edgelist [⟨"A", "B", 1⟩])).map Prod.fst =
      (from_pandas_edgelist [⟨"A", "B", 1⟩]).nodes :=
  (degreeMap_spec (from_pandas_edgelist [⟨"A", "B", 1⟩]) (by decide)).2.1

/-- C3 counterexample: in the graph built from the single self loop record
(A, A, 1) the degree entry of the only node is 2, while only one edge of
the graph is incident to it, so a degree entry is not always the number of
incident edges. -/
theorem degreeMap_selfLoop_counterexample :
    degreeMap (from_pandas_edgelist [⟨"A", "A", 1⟩]) = [("A", 2)] ∧
    incidentCount (from_pandas_edgelist [⟨"A", "A", 1⟩]) "A" = 1 ∧
    (2 : ℕ) ≠ 1 := by
  refine ⟨by decide, by decide, by decide⟩

/-- Combination of the weights already stored for a pair with the weights
of later records for it: any later record overwrites, so only the last
one survives. -/
def lastOr (old ws : List ℚ) : List ℚ :=
  match ws.getLast? with
  | none => old
  | some w => [w]

theorem eq_false_of_not_eq_true {b : Bool} (h : ¬b = true) : b = false := by
  cases b
  · rfl
  · exact absurd rfl h

theorem lastOr_cons (old : List ℚ) (w : ℚ) (ws : List ℚ) :
    lastOr old (w :: ws) = lastOr [w] ws := by
  cases ws with
  | nil => rfl
  | cons b bs =>
    cases hb : (b :: bs).getLast? with
    | none => exact absurd hb (by simp)
    | some u => simp [lastOr, List.getLast?_cons_cons, hb]

theorem lastOr_nil_eq_toList (ws : List ℚ) : lastOr [] ws = ws.getLast?.toList := by
  rw [lastOr]
  cases ws.getLast? <;> rfl

theorem updEdges_filter_of_not_sameEdge (es : List ((String × String) × ℚ))
    (s t : String) (w : ℚ) (p : String × String)
    (hp : sameEdge (s, t) p = false) :
    (updEdges es s t w).filter (fun e => sameEdge e.1 p)
      = es.filter (fun e => sameEdge e.1 p) := by
  induction es with
  | nil => simp [updEdges, List.filter_cons, hp]
  | cons e es ih =>
    by_cases hs : sameEdge e.1 (s, t) = true
    · have he : sameEdge e.1 p = false := by
        apply eq_false_of_not_eq_true
        intro ht
        exact absurd (sameEdge_trans (sameEdge_symm hs) ht) (by simp [hp])
      rw [updEdges, if_pos hs]
      simp [List.filter_cons, he]
    · rw [updEdges, if_neg hs]
      simp only [List.filter_cons]
      rw [ih]

theorem updEdges_filter_of_sameEdge (es : List ((String × String) × ℚ))
    (s t : String) (w : ℚ) (p : String × String)
    (hp : sameEdge (s, t) p = true)
    (hlen : (es.filter (fun e => sameEdge e.1 p)).length ≤ 1) :
    ((updEdges es s t w).filter (fun e => sameEdge e.1 p)).map Prod.snd = [w] := by
  induction es with
  | nil => simp [updEdges, List.filter_cons, hp]
  | cons e es ih =>
    by_cases hs : sameEdge e.1 (s, t) = true
    · have he : sameEdge e.1 p = true := sameEdge_trans hs hp
      have hrest : es.filter (fun e => sameEdge e.1 p) = [] := by
        rw [List.filter_cons, if_pos he, List.length_cons] at hlen
        exact List.length_eq_zero.mp (Nat.le_zero.mp (Nat.succ_le_succ_iff.mp hlen))
      rw [updEdges, if_pos hs]
      simp [List.filter_cons, he, hrest]
    · have he : sameEdge e.1 p = false := by
        apply eq_false_of_not_eq_true
        intro ht
        exact absurd (sameEdge_trans ht (sameEdge_symm hp)) (by simp [hs])
      rw [List.filter_cons, if_neg (by simp [he])] at hlen
      rw [updEdges, if_neg hs]
      simp only [List.filter_cons, if_neg (by simp [he] : ¬sameEdge e.1 p = true)]
      exact ih hlen

theorem foldl_addEdgeRecord_matching (rs : List EdgeRecord) (G0 : Graph)
    (p : String × String)
    (hinv : ((G0.edges.filter fun e => sameEdge e.1 p).length ≤ 1)) :
    (((rs.foldl addEdgeRecord G0).edges.filter fun e => sameEdge e.1 p).map Prod.snd)
      = lastOr ((G0.edges.filter fun e => sameEdge e.1 p).map Prod.snd)
          ((rs.filter fun r => sameEdge (r.source, r.target) p).map EdgeRecord.weight) := by
  induction rs generalizing G0 with
  | nil => simp [lastOr]
  | cons r rs ih =>
    rw [List.foldl_cons]
    by_cases hr : sameEdge (r.source, r.target) p = true
    · have h2 : (((addEdgeRecord G0 r).edges.filter fun e => sameEdge e.1 p).map Prod.snd)
          = [r.weight] :=
        updEdges_filter_of_sameEdge G0.edges r.source r.target r.weight p hr hinv
      have hinv2 : (((addEdgeRecord G0 r).edges.filter fun e => sameEdge e.1 p).length ≤ 1) := by
        have := congrArg List.length h2
        simpa using Nat.le_of_eq this
      rw [ih (addEdgeRecord G0 r) hinv2, h2, List.filter_cons, if_pos (by simp [hr]),
        List.map_cons, lastOr_cons]
    · have h3 : ((addEdgeRecord G0 r).edges.filter fun e => sameEdge e.1 p)
          = G0.edges.filter fun e => sameEdge e.1 p :=
        updEdges_filter_of_not_sameEdge G0.edges r.source r.target r.weight p
          (by simpa using hr)
      have hinv2 : (((addEdgeRecord G0 r).edges.filter fun e => sameEdge e.1 p).length ≤ 1) := by
        rw [h3]; exact hinv
      rw [ih (addEdgeRecord G0 r) hinv2, h3, List.filter_cons,
        if_neg (by simp [hr] : ¬sameEdge (r.source, r.target) p = true)]

/-- C9: for every record sequence and every unordered pair, the built
graph stores at most one edge for the pair, and the weights stored for
the pair are exactly the weight of the last record carrying that
unordered pair: a duplicate pair collapses to a single edge with the
weight of its last record, not the sum of the weights. -/
theorem from_pandas_edgelist_lastWriteWins (rs : List EdgeRecord) (p : String × String) :
    (((from_pandas_edgelist rs).edges.filter fun e => sameEdge e.1 p).map Prod.snd
      = ((rs.filter fun r => sameEdge (r.source, r.target) p).map
          EdgeRecord.weight).getLast?.toList) ∧
    ((from_pandas_edgelist rs).edges.filter fun e => sameEdge e.1 p).length ≤ 1 := by
  have h := foldl_addEdgeRecord_matching rs ⟨[], []⟩ p (by simp)
  have h0 : ((Graph.mk [] []).edges.filter fun e => sameEdge e.1 p).map Prod.snd = [] := rfl
  rw [h0] at h
  have h1 : ((from_pandas_edgelist rs).edges.filter fun e => sameEdge e.1 p).map Prod.snd
      = ((rs.filter fun r => sameEdge (r.source, r.target) p).map
          EdgeRecord.weight).getLast?.toList := by
    rw [from_pandas_edgelist, h, lastOr_nil_eq_toList]
  refine ⟨h1, ?_⟩
  have h2 := congrArg List.length h1
  rw [List.length_map] at h2
  rw [h2]
  cases ((rs.filter fun r => sameEdge (r.source, r.target) p).map
      EdgeRecord.weight).getLast? <;> simp

/-! ## Result Table Assembler: network_csv (source lines 151 to 174) -/

/-- Lookup of a key in an association list modelling a Python dict held
in insertion order. -/
def alookup : List (String × ℚ) → String → Option ℚ
  | [], _ => none
  | kv :: rest, k => if kv.1 = k then some kv.2 else alookup rest k

/-- Key list of a centrality dict, in insertion order. -/
def keysOf (m : List (String × ℚ)) : List String := m.map Prod.fst

/-- One appending step of the defaultdict(list) dd of network_csv:
dd[key].append(value) extends the list of an existing key in place and
registers a fresh key at the end. -/
def ddAppend : List (String × List ℚ) → String → ℚ → List (String × List ℚ)
  | [], k, v => [(k, [v])]
  | kv :: rest, k, v =>
      if kv.1 = k then (kv.1, kv.2 ++ [v]) :: rest else kv :: ddAppend rest k v

/-- The double loop of network_csv: for d in (dg, ev, bc): for key, value
in d.items(): dd[key].append(value). -/
def buildDD (dg ev bc : List (String × ℚ)) : List (String × List ℚ) :=
  ((dg ++ ev) ++ bc).foldl (fun dd kv => ddAppend dd kv.1 kv.2) []

/-- Lookup in the defaultdict model. -/
def ddLookup : List (String × List ℚ) → String → Option (List ℚ)
  | [], _ => none
  | kv :: rest, k => if kv.1 = k then some kv.2 else ddLookup rest k

/-- Keys of the defaultdict model, in insertion order. -/
def ddKeys (dd : List (String × List ℚ)) : List String := dd.map Prod.fst

/-- Row padding of the pandas DataFrame constructor on ragged input: a
row shorter than the three named columns is filled with NaN on the
right. -/
def padRow (vs : List ℚ) : List (Option ℚ) :=
  (vs.map some ++ List.replicate 3 none).take 3

/-- One record of the output table, with a possibly missing (NaN) value
in each of the three centrality columns. -/
structure Row where
  name : String
  degreeCol : Option ℚ
  eigenvectorCol : Option ℚ
  betweennessCol : Option ℚ
deriving DecidableEq

/-- Assembly of one table record from a key of dd and its value list. -/
def mkRow (k : String) (vs : List ℚ) : Row :=
  ⟨k, (padRow vs).headD none, ((padRow vs).drop 1).headD none, ((padRow vs).drop 2).headD none⟩

/-- The three column values of a record, in column order Degree,
Eigenvector, Betweenness. -/
def rowCols (r : Row) : List (Option ℚ) :=
  [r.degreeCol, r.eigenvectorCol, r.betweennessCol]

/-- Embedding of network_csv: the defaultdict is built from the three
dicts, then DataFrame.from_dict(dd, orient = index, columns = three
names) lays the value list of each key out as a row. The constructor of
pandas pads short rows with NaN on the right when the widest row has
width three, raises when every row is shorter (so no table is produced,
modelled as none), and an empty dict gives an empty table. -/
def network_csv (dg ev bc : List (String × ℚ)) : Option (List Row) :=
  if (buildDD dg ev bc).isEmpty then some []
  else if ((buildDD dg ev bc).map fun kv => kv.2.length).foldl max 0 = 3 then
    some ((buildDD dg ev bc).map fun kv => mkRow kv.1 kv.2)
  else none

theorem ddKeys_ddAppend (dd : List (String × List ℚ)) (k : String) (v : ℚ) :
    ddKeys (ddAppend dd k v) = addNode (ddKeys dd) k := by
  induction dd with
  | nil => rfl
  | cons kv rest ih =>
    by_cases hk : kv.1 = k
    · have hmem : k ∈ ddKeys (kv :: rest) := by
        show k ∈ kv.1 :: ddKeys rest
        exact List.mem_cons.mpr (Or.inl hk.symm)
      rw [ddAppend, if_pos hk, addNode, if_pos hmem]
      rfl
    · rw [ddAppend, if_neg hk]
      show kv.1 :: ddKeys (ddAppend rest k v) = addNode (ddKeys (kv :: rest)) k
      rw [ih, addNode, addNode]
      by_cases hm : k ∈ ddKeys rest
      · have hmem : k ∈ ddKeys (kv :: rest) := by
          show k ∈ kv.1 :: ddKeys rest
          exact List.mem_cons.mpr (Or.inr hm)
        rw [if_pos hm, if_pos hmem]
        rfl
      · have hnm : k ∉ ddKeys (kv :: rest) := by
          show ¬k ∈ kv.1 :: ddKeys rest
          intro hc
          rcases List.mem_cons.mp hc with hc1 | hc2
          · exact hk hc1.symm
          · exact hm hc2
        rw [if_neg hm, if_neg hnm]
        rfl

theorem ddLookup_ddAppend_self (dd : List (String × List ℚ)) (k : String) (v : ℚ) :
    ddLookup (ddAppend dd k v) k = some ((ddLookup dd k).getD [] ++ [v]) := by
  induction dd with
  | nil => simp [ddAppend, ddLookup]
  | cons kv rest ih =>
    by_cases hk : kv.1 = k
    · rw [ddAppend, if_pos hk, ddLookup, if_pos hk, ddLookup, if_pos hk]
      rfl
    · rw [ddAppend, if_neg hk, ddLookup, if_neg hk, ddLookup, if_neg hk]
      exact ih

theorem ddLookup_ddAppend_other (dd : List (String × List ℚ)) (k k' : String) (v : ℚ)
    (hne : k' ≠ k) :
    ddLookup (ddAppend dd k v) k' = ddLookup dd k' := by
  induction dd with
  | nil => simp [ddAppend, ddLookup, Ne.symm hne]
  | cons kv rest ih =>
    by_cases hk : kv.1 = k
    · have hk' : kv.1 ≠ k' := by rw [hk]; exact fun hc => hne hc.symm
      rw [ddAppend, if_pos hk, ddLookup, if_neg hk', ddLookup, if_neg hk']
    · rw [ddAppend, if_neg hk, ddLookup, ddLookup]
      by_cases hk2 : kv.1 = k'
      · rw [if_pos hk2, if_pos hk2]
      · rw [if_neg hk2, if_neg hk2]
        exact ih

/-- Value list a key ends up with after appending a batch of values to an
optional existing list: an untouched missing key stays missing, a touched
one holds its old values followed by the new ones. -/
def mergeVals (o : Option (List ℚ)) (ws : List ℚ) : Option (List ℚ) :=
  match o with
  | some vs => some (vs ++ ws)
  | none => if ws = [] then none else some ws

theorem mergeVals_nil (o : Option (List ℚ)) : mergeVals o [] = o := by
  cases o <;> simp [mergeVals]

theorem mergeVals_cons (o : Option (List ℚ)) (w : ℚ) (ws : List ℚ) :
    mergeVals o (w :: ws) = mergeVals (some (o.getD [] ++ [w])) ws := by
  cases o <;> simp [mergeVals]

theorem ddLookup_foldl (l : List (String × ℚ)) (dd0 : List (String × List ℚ)) (k : String) :
    ddLookup (l.foldl (fun dd kv => ddAppend dd kv.1 kv.2) dd0) k
      = mergeVals (ddLookup dd0 k) ((l.filter fun kv => kv.1 = k).map Prod.snd) := by
  induction l generalizing dd0 with
  | nil => simp [mergeVals_nil]
  | cons kv l ih =>
    rw [List.foldl_cons, ih (ddAppend dd0 kv.1 kv.2)]
    by_cases hk : kv.1 = k
    · subst hk
      rw [ddLookup_ddAppend_self, List.filter_cons, if_pos (by simp), List.map_cons,
        mergeVals_cons]
    · rw [ddLookup_ddAppend_other dd0 kv.1 k kv.2 (fun hc => hk hc.symm),
        List.filter_cons, if_neg (by simpa using hk)]

theorem ddKeys_foldl (l : List (String × ℚ)) (dd0 : List (String × List ℚ)) :
    ddKeys (l.foldl (fun dd kv => ddAppend dd kv.1 kv.2) dd0)
      = (l.map Prod.fst).foldl addNode (ddKeys dd0) := by
  induction l generalizing dd0 with
  | nil => rfl
  | cons kv l ih =>
    rw [List.foldl_cons, ih (ddAppend dd0 kv.1 kv.2), ddKeys_ddAppend, List.map_cons,
      List.foldl_cons]

theorem mem_addNode (ns : List String) (u v : String) :
    v ∈ addNode ns u ↔ v ∈ ns ∨ v = u := by
  rw [addNode]
  by_cases hu : u ∈ ns
  · rw [if_pos hu]
    constructor
    · exact Or.inl
    · rintro (h | rfl)
      · exact h
      · exact hu
  · rw [if_neg hu]
    simp

theorem mem_foldl_addNode (l : List String) (init : List String) (v : String) :
    v ∈ l.foldl addNode init ↔ v ∈ init ∨ v ∈ l := by
  induction l generalizing init with
  | nil => simp
  | cons a l ih =>
    rw [List.foldl_cons, ih (addNode init a)]
    rw [mem_addNode]
    constructor
    · rintro ((h | rfl) | h)
      · exact Or.inl h
      · exact Or.inr (List.mem_cons.mpr (Or.inl rfl))
      · exact Or.inr (List.mem_cons.mpr (Or.inr h))
    · rintro (h | h)
      · exact Or.inl (Or.inl h)
      · rcases List.mem_cons.mp h with rfl | h2
        · exact Or.inl (Or.inr rfl)
        · exact Or.inr h2

theorem nodup_addNode (ns : List String) (u : String) (h : ns.Nodup) :
    (addNode ns u).Nodup := by
  rw [addNode]
  by_cases hu : u ∈ ns
  · rw [if_pos hu]
    exact h
  · rw [if_neg hu]
    simp [List.nodup_append, h, hu]

theorem nodup_foldl_addNode (l : List String) (init : List String) (h : init.Nodup) :
    (l.foldl addNode init).Nodup := by
  induction l generalizing init with
  | nil => exact h
  | cons a l ih => exact ih (addNode init a) (nodup_addNode init a h)

theorem alookup_eq_none_of_not_mem {m : List (String × ℚ)} {k : String}
    (h : k ∉ keysOf m) : alookup m k = none := by
  induction m with
  | nil => rfl
  | cons kv rest ih =>
    have h1 : kv.1 ≠ k := fun hc => h (by simp [keysOf, hc])
    have h2 : k ∉ keysOf rest := fun hc => h (by simp [keysOf] at hc ⊢; exact Or.inr hc)
    rw [alookup, if_neg h1]
    exact ih h2

theorem alookup_isSome_of_mem {m : List (String × ℚ)} {k : String}
    (h : k ∈ keysOf m) : ∃ w, alookup m k = some w := by
  induction m with
  | nil => cases h
  | cons kv rest ih =>
    by_cases hk : kv.1 = k
    · exact ⟨kv.2, by rw [alookup, if_pos hk]⟩
    · have h2 : k ∈ keysOf rest := by
        rcases List.mem_cons.mp h with hc | hc
        · exact absurd hc.symm hk
        · exact hc
      obtain ⟨w, hw⟩ := ih h2
      exact ⟨w, by rw [alookup, if_neg hk]; exact hw⟩

theorem filter_map_eq_alookup_toList (m : List (String × ℚ)) (k : String)
    (h : (keysOf m).Nodup) :
    ((m.filter fun kv => kv.1 = k).map Prod.snd) = (alookup m k).toList := by
  induction m with
  | nil => rfl
  | cons kv rest ih =>
    have hnd : kv.1 ∉ keysOf rest ∧ (keysOf rest).Nodup := by
      rw [keysOf, List.map_cons, List.nodup_cons] at h
      exact ⟨h.1, h.2⟩
    by_cases hk : kv.1 = k
    · have hrest : rest.filter (fun kv => kv.1 = k) = [] := by
        rw [List.filter_eq_nil]
        intro a ha
        simp only [decide_eq_true_eq]
        intro hc
        exact hnd.1 (by rw [hk, ← hc]; exact List.mem_map_of_mem Prod.fst ha)
      rw [List.filter_cons, if_pos (by simpa using hk), alookup, if_pos hk, hrest]
      rfl
    · rw [List.filter_cons, if_neg (by simpa using hk), alookup, if_neg hk]
      exact ih hnd.2

theorem ddLookup_eq_some_of_mem {dd : List (String × List ℚ)} {k : String} {vs : List ℚ}
    (hnd : (ddKeys dd).Nodup) (hm : (k, vs) ∈ dd) : ddLookup dd k = some vs := by
  induction dd with
  | nil => cases hm
  | cons kv rest ih =>
    have hnd2 : kv.1 ∉ ddKeys rest ∧ (ddKeys rest).Nodup := by
      rw [ddKeys, List.map_cons, List.nodup_cons] at hnd
      exact ⟨hnd.1, hnd.2⟩
    rcases List.mem_cons.mp hm with rfl | hrest
    · rw [ddLookup, if_pos rfl]
    · by_cases hk : kv.1 = k
      · exact absurd (by rw [hk]; exact List.mem_map_of_mem Prod.fst hrest) hnd2.1
      · rw [ddLookup, if_neg hk]
        exact ih hnd2.2 hrest

theorem mem_of_ddLookup_eq_some {dd : List (String × List ℚ)} {k : String} {vs : List ℚ}
    (h : ddLookup dd k = some vs) : (k, vs) ∈ dd := by
  induction dd with
  | nil => cases h
  | cons kv rest ih =>
    by_cases hk : kv.1 = k
    · rw [ddLookup, if_pos hk] at h
      have : kv = (k, vs) := by
        cases kv
        cases h
        cases hk
        rfl
      rw [List.mem_cons]
      exact Or.inl this.symm
    · rw [ddLookup, if_neg hk] at h
      exact List.mem_cons_of_mem kv (ih h)

theorem ddLookup_isSome_of_mem_keys {dd : List (String × List ℚ)} {k : String}
    (h : k ∈ ddKeys dd) : ∃ vs, ddLookup dd k = some vs := by
  induction dd with
  | nil => cases h
  | cons kv rest ih =>
    by_cases hk : kv.1 = k
    · exact ⟨kv.2, by rw [ddLookup, if_pos hk]⟩
    · have h2 : k ∈ ddKeys rest := by
        rcases List.mem_cons.mp h with hc | hc
        · exact absurd hc.symm hk
        · exact hc
      obtain ⟨vs, hvs⟩ := ih h2
      exact ⟨vs, by rw [ddLookup, if_neg hk]; exact hvs⟩

theorem padRow_length (vs : List ℚ) : (padRow vs).length = 3 := by
  rw [padRow, List.length_take, List.length_append, List.length_map, List.length_replicate]
  omega

theorem rowCols_mkRow (k : String) (vs : List ℚ) : rowCols (mkRow k vs) = padRow vs := by
  obtain ⟨a, b, c, habc⟩ := List.length_eq_three.mp (padRow_length vs)
  rw [rowCols, mkRow, habc]
  rfl

theorem foldl_max_nat_le {n : ℕ} {l : List ℕ} (a : ℕ) (ha : a ≤ n)
    (h : ∀ x ∈ l, x ≤ n) : l.foldl max a ≤ n := by
  induction l generalizing a with
  | nil => exact ha
  | cons x l ih =>
    rw [List.foldl_cons]
    exact ih (max a x) (max_le ha (h x (List.mem_cons.mpr (Or.inl rfl))))
      (fun y hy => h y (List.mem_cons.mpr (Or.inr hy)))

theorem init_le_foldl_max_nat (l : List ℕ) (a : ℕ) : a ≤ l.foldl max a := by
  induction l generalizing a with
  | nil => exact le_refl a
  | cons x l ih => exact le_trans (le_max_left a x) (ih (max a x))

theorem le_foldl_max_nat {x : ℕ} {l : List ℕ} (a : ℕ) (h : x ∈ l) :
    x ≤ l.foldl max a := by
  induction l generalizing a with
  | nil => cases h
  | cons y l ih =>
    rw [List.foldl_cons]
    rcases List.mem_cons.mp h with rfl | h2
    · exact le_trans (le_max_right a x) (init_le_foldl_max_nat l (max a x))
    · exact ih (max a y) h2

theorem otoList_length (o : Option ℚ) : o.toList.length ≤ 1 := by
  cases o <;> simp

theorem mergeVals_none_eq_some {ws vs : List ℚ} (h : mergeVals none ws = some vs) :
    vs = ws := by
  rw [mergeVals] at h
  by_cases hw : ws = []
  · rw [if_pos hw] at h
    cases h
  · rw [if_neg hw] at h
    exact (Option.some_inj.mp h).symm

theorem buildDD_lookup (dg ev bc : List (String × ℚ)) (k : String)
    (hdg : (keysOf dg).Nodup) (hev : (keysOf ev).Nodup) (hbc : (keysOf bc).Nodup) :
    ddLookup (buildDD dg ev bc) k
      = mergeVals none ((alookup dg k).toList ++ (alookup ev k).toList ++
          (alookup bc k).toList) := by
  rw [buildDD, ddLookup_foldl]
  have h1 : ((((dg ++ ev) ++ bc).filter fun kv => kv.1 = k).map Prod.snd)
      = (alookup dg k).toList ++ (alookup ev k).toList ++ (alookup bc k).toList := by
    rw [List.filter_append, List.filter_append, List.map_append, List.map_append,
      filter_map_eq_alookup_toList dg k hdg, filter_map_eq_alookup_toList ev k hev,
      filter_map_eq_alookup_toList bc k hbc]
  rw [h1]
  rfl

theorem buildDD_keys (dg ev bc : List (String × ℚ)) :
    ddKeys (buildDD dg ev bc)
      = ((keysOf dg ++ keysOf ev) ++ keysOf bc).foldl addNode [] := by
  rw [buildDD, ddKeys_foldl, List.map_append, List.map_append]
  rfl

/-- C4 (amended): when the three maps have no duplicate keys and at least
one node is present in all three (as holds for the engine outputs, which
share the node set), the assembler produces exactly one record per node
key of the union of the three key sets, in first-appearance order, never
silently dropping a node; however the values of a record are the values
of the maps containing the key, left-aligned across the columns in map
order, with the missing-value padding only in the trailing columns, so
the missing value need not appear in the column of the map the node is
absent from. -/
theorem network_csv_spec (dg ev bc : List (String × ℚ))
    (hdg : (keysOf dg).Nodup) (hev : (keysOf ev).Nodup) (hbc : (keysOf bc).Nodup)
    (hfull : ∃ k0, k0 ∈ keysOf dg ∧ k0 ∈ keysOf ev ∧ k0 ∈ keysOf bc) :
    ∃ rows, network_csv dg ev bc = some rows ∧
      (rows.map Row.name).Nodup ∧
      (∀ k, k ∈ rows.map Row.name ↔ k ∈ keysOf dg ∨ k ∈ keysOf ev ∨ k ∈ keysOf bc) ∧
      ∀ row ∈ rows, rowCols row =
        padRow ((alookup dg row.name).toList ++ (alookup ev row.name).toList ++
          (alookup bc row.name).toList) := by
  have hknodup : (ddKeys (buildDD dg ev bc)).Nodup := by
    rw [buildDD_keys]
    exact nodup_foldl_addNode _ [] List.nodup_nil
  have hkmem : ∀ k, k ∈ ddKeys (buildDD dg ev bc) ↔
      k ∈ keysOf dg ∨ k ∈ keysOf ev ∨ k ∈ keysOf bc := by
    intro k
    rw [buildDD_keys, mem_foldl_addNode]
    simp only [List.not_mem_nil, false_or, List.mem_append]
    tauto
  have hvals : ∀ k vs, (k, vs) ∈ buildDD dg ev bc →
      vs = (alookup dg k).toList ++ (alookup ev k).toList ++ (alookup bc k).toList := by
    intro k vs hm
    have h1 := ddLookup_eq_some_of_mem hknodup hm
    rw [buildDD_lookup dg ev bc k hdg hev hbc] at h1
    exact mergeVals_none_eq_some h1
  obtain ⟨k0, hk0dg, hk0ev, hk0bc⟩ := hfull
  have hk0 : k0 ∈ ddKeys (buildDD dg ev bc) := (hkmem k0).mpr (Or.inl hk0dg)
  obtain ⟨vs0, hvs0⟩ := ddLookup_isSome_of_mem_keys hk0
  have hm0 : (k0, vs0) ∈ buildDD dg ev bc := mem_of_ddLookup_eq_some hvs0
  have hlen0 : vs0.length = 3 := by
    obtain ⟨w1, hw1⟩ := alookup_isSome_of_mem hk0dg
    obtain ⟨w2, hw2⟩ := alookup_isSome_of_mem hk0ev
    obtain ⟨w3, hw3⟩ := alookup_isSome_of_mem hk0bc
    rw [hvals k0 vs0 hm0, hw1, hw2, hw3]
    rfl
  have hnil : buildDD dg ev bc ≠ [] := by
    intro hc
    rw [ddKeys, hc] at hk0
    cases hk0
  have hne : (buildDD dg ev bc).isEmpty = false :=
    eq_false_of_not_eq_true fun hc => hnil (List.isEmpty_iff.mp hc)
  have hw3 : 3 ∈ (buildDD dg ev bc).map fun kv => kv.2.length :=
    List.mem_map.mpr ⟨(k0, vs0), hm0, hlen0⟩
  have hwle : ∀ x ∈ (buildDD dg ev bc).map fun kv => kv.2.length, x ≤ 3 := by
    intro x hx
    obtain ⟨kv, hkv, rfl⟩ := List.mem_map.mp hx
    obtain ⟨k, vs⟩ := kv
    rw [hvals k vs hkv, List.length_append, List.length_append]
    have t1 := otoList_length (alookup dg k)
    have t2 := otoList_length (alookup ev k)
    have t3 := otoList_length (alookup bc k)
    omega
  have hmax : (((buildDD dg ev bc).map fun kv => kv.2.length).foldl max 0) = 3 :=
    le_antisymm (foldl_max_nat_le 0 (by norm_num) hwle) (le_foldl_max_nat 0 hw3)
  have hnames : (((buildDD dg ev bc).map fun kv => mkRow kv.1 kv.2).map Row.name)
      = ddKeys (buildDD dg ev bc) := by
    rw [List.map_map]
    rfl
  refine ⟨(buildDD dg ev bc).map fun kv => mkRow kv.1 kv.2, ?_, ?_, ?_, ?_⟩
  · rw [network_csv, if_neg (by rw [hne]; exact Bool.false_ne_true), if_pos hmax]
  · rw [hnames]
    exact hknodup
  · intro k
    rw [hnames]
    exact hkmem k
  · intro row hrow
    obtain ⟨kv, hkv, rfl⟩ := List.mem_map.mp hrow
    obtain ⟨k, vs⟩ := kv
    rw [rowCols_mkRow]
    have hname : (mkRow k vs).name = k := rfl
    rw [hname, ← hvals k vs hkv]

/-- C4 counterexample: with degree map A only and eigenvector and
betweenness maps over A and B, the record of B is kept (the union is
used) but its eigenvector value 7 lands in the Degree column and the
missing value marker lands in the Betweenness column, although B is
absent from the degree map, not from the betweenness map: the missing
value is not placed in the column of the map the node is absent from. -/
theorem network_csv_counterexample :
    network_csv [("A", 1)] [("A", 4), ("B", 7)] [("A", 5), ("B", 3)]
      = some [⟨"A", some 1, some 4, some 5⟩, ⟨"B", some 7, some 3, none⟩] ∧
    alookup [("A", 1)] "B" = none ∧
    alookup [("A", 5), ("B", 3)] "B" = some 3 ∧
    (⟨"B", some 7, some 3, none⟩ : Row).degreeCol ≠ none ∧
    (⟨"B", some 7, some 3, none⟩ : Row).betweennessCol = none := by
  refine ⟨by decide, by decide, by decide, by decide, by decide⟩

/-- Witness for C4 (amended) on three single-entry maps sharing the key A. -/
theorem network_csv_spec_witness :
    (network_csv [("A", 1)] [("A", 4)] [("A", 5)]).isSome = true := by
  obtain ⟨rows, h, -, -, -⟩ :=
    network_csv_spec [("A", 1)] [("A", 4)] [("A", 5)] (by decide) (by decide) (by decide)
      ⟨"A", by decide, by decide, by decide⟩
  rw [h]
  rfl

/-! ## Round trip of the pipeline (source lines 66 to 80 and 151 to 174) -/

/-- The example edge list: records (A, B, 1.0), (B, C, 2.0), (A, C, 1.5). -/
def recs3 : List EdgeRecord := [⟨"A", "B", 1⟩, ⟨"B", "C", 2⟩, ⟨"A", "C", 3/2⟩]

/-- The degree dict of the script with its counts as the numeric column
values of the table. -/
def degreeMapQ (G : Graph) : List (String × ℚ) :=
  G.nodes.map fun v => (v, (degree G v : ℚ))

/-- A centrality dict of networkx over graph G: one entry per node of G,
in node order; the numeric values are abstracted by f, since the
eigenvector and betweenness scores are whatever the iterative floating
point computation returns, while their key set is exactly the node
set. -/
def nodeValues (G : Graph) (f : String → ℚ) : List (String × ℚ) :=
  G.nodes.map fun v => (v, f v)

/-- C6: the pipeline on the edge list (A, B, 1.0), (B, C, 2.0),
(A, C, 1.5), for every pair of eigenvector and betweenness value
assignments: the built graph has exactly the 3 nodes A, B, C, every node
has degree 2, and the result table has exactly 3 rows, one per node, in
the deterministic order A, B, C, which is sorted. -/
theorem pipeline_roundtrip (evv bcv : String → ℚ) :
    (from_pandas_edgelist recs3).nodes = ["A", "B", "C"] ∧
    (from_pandas_edgelist recs3).nodes.length = 3 ∧
    (∀ v ∈ (from_pandas_edgelist recs3).nodes, degree (from_pandas_edgelist recs3) v = 2) ∧
    network_csv (degreeMapQ (from_pandas_edgelist recs3))
        (nodeValues (from_pandas_edgelist recs3) evv)
        (nodeValues (from_pandas_edgelist recs3) bcv)
      = some [⟨"A", some ((2 : ℕ) : ℚ), some (evv "A"), some (bcv "A")⟩,
          ⟨"B", some ((2 : ℕ) : ℚ), some (evv "B"), some (bcv "B")⟩,
          ⟨"C", some ((2 : ℕ) : ℚ), some (evv "C"), some (bcv "C")⟩] ∧
    List.Chain' (fun u v : String => u < v) ["A", "B", "C"] := by
  refine ⟨by decide, by decide, by decide, ?_, ?_⟩
  · rfl
  · refine List.chain'_cons.mpr ⟨?_, List.chain'_cons.mpr ⟨?_, List.chain'_singleton _⟩⟩ <;>
      (rw [String.lt_iff_toList_lt]; decide)

/-! ## Layout Renderer: plot_network (source lines 83 to 148) -/

/-- The branch structure of plot_network on the layout selector: exactly
the four recognised names reach a drawing call, any other selector falls
through every branch and nothing is drawn. -/
def plot_network_draws (plot_style : String) : Bool :=
  if plot_style = "circular" then true
  else if plot_style = "kamada_kawai" then true
  else if plot_style = "spring" then true
  else if plot_style = "random" then true
  else false

/-- Observable outcome of one plot_network call: whether any drawing call
ran, and whether the figure file was written. -/
structure RenderOutcome where
  drew : Bool
  savedFigure : Bool
deriving DecidableEq

/-- Embedding of the control behaviour of plot_network: the chain of
layout branches selects the drawing call, and plt.savefig runs
unconditionally afterwards, so a figure file is always written. -/
def plot_network (plot_style : String) : RenderOutcome :=
  ⟨plot_network_draws plot_style, true⟩

/-- C5 at the failing input: the selector foo is outside the accepted
set, no branch draws, and the figure is still saved, so an empty output
file is produced silently; every accepted selector draws and saves. No
error of any kind is raised on the unknown selector. -/
theorem plot_network_unknown_layout :
    plot_network "foo" = ⟨false, true⟩ ∧
    ("foo" ∉ ["spring", "circular", "kamada_kawai", "random"]) ∧
    ∀ s ∈ ["spring", "circular", "kamada_kawai", "random"],
      plot_network s = ⟨true, true⟩ := by
  refine ⟨by decide, by decide, by decide⟩

/-! ## Batch processing: main (source lines 177 to 209) -/

/-- Embedding of the directory branch of main: each file of the glob list
is processed in turn by the per file pipeline, abstracted as the fallible
step function; there is no exception handling anywhere in the script, so
the first failing step ends the loop, its error escapes, and no later
file is processed. The result holds the outputs of the files processed
before the failure and the escaped error, if any. -/
def mainBatchLoop {F A : Type} (step : F → Except String A) : List F → List A × Option String
  | [] => ([], none)
  | f :: fs =>
      match step f with
      | Except.error e => ([], some e)
      | Except.ok a => ((a :: (mainBatchLoop step fs).1, (mainBatchLoop step fs).2))

/-- C8 at the failing input: in a directory batch where the first file
fails (for instance with a non-convergence error escaping from the
eigenvector computation) and the second file is fine, the error escapes
the loop and the second file is never processed: no output of it appears
and the error is the result of the run, so the batch does not continue
with the remaining files. -/
theorem mainBatchLoop_aborts_batch :
    mainBatchLoop (fun f => f)
        [Except.error "PowerIterationFailedConvergence", Except.ok (0 : ℕ)]
      = ([], some "PowerIterationFailedConvergence") ∧
    mainBatchLoop (fun f => f)
        [Except.ok (0 : ℕ), Except.error "PowerIterationFailedConvergence"]
      = ([0], some "PowerIterationFailedConvergence") := by
  refine ⟨rfl, rfl⟩
